import Mathlib

/-!
Verification of the CalendarRAG-Agent core logic.

The Python source is shallowly embedded: pure functions become Lean
functions; machine floats used only as similarity scores become `ℚ`;
the embedding collaborator (`embed_text`) and the cosine similarity it
induces are abstracted as an explicit list of per-item scores, one score
per KB chunk / calendar event, exactly the row `cosine_similarity(q_emb, M)[0]`
the source computes; fallible file IO becomes an explicit `FileState`.
All string matching mirrors Python's `in`, `str.split()`, `str.strip()`,
`str.lower()` and the concrete regular expressions of the source,
specialised to their leftmost-match / greedy / lazy semantics.
-/

/-! ## Basic string helpers (models of Python str operations, ASCII inputs) -/

/-- Python `str.lower()` (ASCII). -/
def lowStr (s : String) : String := ⟨s.data.map Char.toLower⟩

/-- Python's `\s` class / `str.isspace`. -/
def isSp (c : Char) : Bool := c.isWhitespace

/-- Python's regex `\w` class (ASCII part). -/
def isWd (c : Char) : Bool := c.isAlphanum || c = '_'

/-- A character matched by the regex class `[\w\s]`. -/
def isWdSp (c : Char) : Bool := isWd c || isSp c

/-- Does the character list start with the given pattern (exact characters)? -/
def hasPre : List Char → List Char → Bool
  | [], _ => true
  | _ :: _, [] => false
  | a :: as, b :: bs => (a == b) && hasPre as bs

/-- Case-insensitive version of `hasPre` (for regexes compiled with `re.I`). -/
def ciPre : List Char → List Char → Bool
  | [], _ => true
  | _ :: _, [] => false
  | a :: as, b :: bs => (a.toLower == b.toLower) && ciPre as bs

/-- Does `pat` occur as a contiguous substring? (Python's `pat in s`.) -/
def hasSub (pat : List Char) : List Char → Bool
  | [] => pat.isEmpty
  | c :: rest => hasPre pat (c :: rest) || hasSub pat rest

/-- Python `pat in s` on strings. -/
def inStr (pat s : String) : Bool := hasSub pat.data s.data

/-- Python `str.strip()`. -/
def stripChars (l : List Char) : List Char :=
  ((l.dropWhile isSp).reverse.dropWhile isSp).reverse

/-- Helper for `wordsOf`: `acc` holds the current word, reversed. -/
def wordsAux : List Char → List Char → List (List Char)
  | [], acc => if acc.isEmpty then [] else [acc.reverse]
  | c :: rest, acc =>
    if isSp c then
      if acc.isEmpty then wordsAux rest [] else acc.reverse :: wordsAux rest []
    else wordsAux rest (c :: acc)

/-- Python `str.split()` (split on whitespace runs, dropping empties). -/
def wordsOf (l : List Char) : List (List Char) := wordsAux l []

/-- Python `" ".join(words)`. -/
def joinW (ws : List (List Char)) : List Char := List.intercalate [' '] ws

/-- Python `f"{n:02d}"` for a natural number. -/
def pad2 (n : ℕ) : String := if n < 10 then "0" ++ Nat.repr n else Nat.repr n

/-! ## `backend/rag.py` -/

/-- A KB chunk record, as built at startup: `{"id", "file", "chunk_index", "text"}`. -/
structure KBChunk where
  id : String
  file : String
  chunk_index : ℕ
  text : String
deriving DecidableEq

/-- `chunk_text`'s sliding-window loop, producing the word windows
`words[start:end]` in order.  The source's `while` loop is modelled with
explicit fuel; `none` means the fuel ran out, i.e. the loop did not
terminate within the allotted number of iterations. -/
def chunkLoop (words : List String) (chunk_size overlap : ℕ) :
    ℕ → ℕ → Option (List (List String))
  | 0, _ => none
  | fuel + 1, start =>
    let L := words.length
    if start < L then
      let e := min (start + chunk_size) L
      let w := (words.drop start).take (e - start)
      if e = L then some [w]
      else
        -- start = end - overlap if end - overlap > start else end
        let start2 := if start + overlap < e then e - overlap else e
        (chunkLoop words chunk_size overlap fuel start2).map (w :: ·)
    else some []

/-- `chunk_text(text, chunk_size, overlap)`: split text into word-based
chunks with overlap.  Each chunk is the `" ".join` of one window. -/
def chunk_text (text : String) (chunk_size overlap : ℕ) : Option (List String) :=
  let words := (wordsOf text.data).map fun w => (⟨w⟩ : String)
  if words = [] then some []
  else (chunkLoop words chunk_size overlap (words.length + 1) 0).map
    (·.map fun w => (⟨joinW (w.map String.data)⟩ : String))

/-- Score of index `i` in the similarity row (`scores[i]`). -/
def scAt (scores : List ℚ) (i : ℕ) : ℚ := scores.getD i 0

/-- One insertion step of an ascending sort of indices by score: an element
is placed before the first strictly greater score, so equal scores keep
their insertion order. -/
def insertAsc (scores : List ℚ) (x : ℕ) : List ℕ → List ℕ
  | [] => [x]
  | y :: ys =>
    if scAt scores x < scAt scores y then x :: y :: ys
    else y :: insertAsc scores x ys

/-- `scores.argsort()`.  NumPy's default `kind='quicksort'` (introsort)
guarantees only that the result is sorted ascending by score; the relative
order of *equal* scores is unspecified (the implementation happens to be
stable while an array fits its small-array insertion-sort regime, as in the
concrete instances evaluated below, but not in general).  This executable
model realizes the stable ascending order; general theorems proved from it
use only properties invariant under permuting equal scores. -/
def argsort (scores : List ℚ) : List ℕ :=
  (List.range scores.length).foldl (fun acc i => insertAsc scores i acc) []

/-- Python/numpy slice `l[-k:]`.  Note `l[-0:]` is the whole list. -/
def sliceLast (l : List ℕ) (k : ℕ) : List ℕ :=
  if k = 0 then l else l.drop (l.length - k)

/-- A KB retrieval hit: the source materialises
`{"id", "file", "chunk_index", "text", "score"}` from `kb_chunks[i]`;
we additionally record the position `i` itself. -/
structure KBHit where
  index : ℕ
  id : String
  file : String
  chunk_index : ℕ
  text : String
  score : ℚ
deriving DecidableEq

/-- `retrieve_kb(query, top_k, threshold)`.  `scores` is the row
`cosine_similarity(embed_text(query), kb_chunk_embeddings)[0]`, one score per
chunk of `kb_chunks` (the embedding function is an external collaborator);
`scores.length = 0` is the source's `kb_chunk_embeddings.size == 0` guard. -/
def retrieve_kb (kb_chunks : List KBChunk) (scores : List ℚ)
    (top_k : ℕ) (threshold : ℚ) : List KBHit :=
  if scores.length = 0 then []
  else
    let inds := (sliceLast (argsort scores) top_k).reverse
    inds.filterMap fun i =>
      if threshold ≤ scAt scores i then
        let chunk := kb_chunks.getD i ⟨"", "", 0, ""⟩
        some ⟨i, chunk.id, chunk.file, chunk.chunk_index, chunk.text, scAt scores i⟩
      else none

/-- An event retrieval hit (the source copies the event doc and adds `score`;
we record the event's position and its score). -/
structure EvHit where
  index : ℕ
  score : ℚ
deriving DecidableEq

/-- Binary maximum, written out so that it evaluates by kernel reduction. -/
def pymax (a b : ℚ) : ℚ := if a ≤ b then b else a

/-- `scores.max()` of a nonempty numpy array (`0` for the empty one,
matching `max_score = float(scores.max()) if scores.size else 0.0`). -/
def maxScore (scores : List ℚ) : ℚ :=
  match scores with
  | [] => 0
  | a :: t => t.foldl pymax a

/-- `retrieve_events(query, events, top_k, threshold, min_rel_score_ratio)`.
`scores` is the cosine-similarity row against the per-event embeddings built
by `build_event_embeddings` — one score per event, so `scores = []` covers
both the `if not events` and the `ev_embs.size == 0` early returns. -/
def retrieve_events (scores : List ℚ) (top_k : ℕ)
    (threshold min_rel : ℚ) : List EvHit :=
  if scores.length = 0 then []
  else if maxScore scores < threshold then []
  else
    ((sliceLast (argsort scores) top_k).reverse).filterMap fun i =>
      if threshold ≤ scAt scores i ∧ maxScore scores * min_rel ≤ scAt scores i then
        some ⟨i, scAt scores i⟩
      else none

/-- State of one on-disk cache file as seen by `_load_cache`: absent,
present-but-unreadable (raises on load), or loaded data. -/
inductive FileState (α : Type) where
  | missing : FileState α
  | corrupt : FileState α
  | good : α → FileState α
deriving DecidableEq

/-- `_load_cache()`: returns `False` when either file is missing
(`exists()` check) or either load raises; otherwise installs the two
loaded values and returns `True`.  Modelled as `none` / `some (meta, emb)`. -/
def load_cache {α β : Type} (metaFile : FileState α) (embFile : FileState β) :
    Option (α × β) :=
  match metaFile, embFile with
  | .good m, .good e => some (m, e)
  | _, _ => none

/-- The import-time startup of `rag.py`: `loaded = _load_cache()`; when that
reports failure the index is rebuilt from the KB files (`rebuilt`). -/
def startupIndex {α β : Type} (metaFile : FileState α) (embFile : FileState β)
    (rebuilt : α × β) : α × β :=
  match load_cache metaFile embFile with
  | some s => s
  | none => rebuilt

/-! ## `backend/evaluator.py` -/

/-- The issue list built by `evaluate_response`. -/
def issuesOf (answer : String) (retrieved_docs : List String) (tool_used : Bool) :
    List String :=
  (if retrieved_docs = [] ∧ tool_used = false then ["No RAG grounding"] else []) ++
  (if (inStr "calendar data:" (lowStr answer) || inStr "google calendar" (lowStr answer)) = true
      ∧ tool_used = false
   then ["Calendar data referenced without tool usage"] else [])

/-- The dict returned by `evaluate_response`. -/
structure Verdict where
  confidence : ℚ
  explanation : String
  pass : Bool
deriving DecidableEq

/-- `evaluate_response(answer, retrieved_docs, tool_used)`. -/
def evaluate_response (answer : String) (retrieved_docs : List String)
    (tool_used : Bool) : Verdict :=
  let issues := issuesOf answer retrieved_docs tool_used
  let confidence : ℚ := 1 - (1/5) * issues.length
  { confidence := pymax confidence 0
    explanation :=
      if issues = [] then "Answer is properly grounded"
      else String.intercalate " | " issues
    pass := issues.length == 0 }

/-! ## `backend/agent.py` -/

/-- `classify_intent(query)`: ordered substring rules over the lowercased query. -/
def classify_intent (query : String) : String :=
  let q := lowStr query
  if (["create", "schedule", "make", "add", "book", "set up", "reserve"].any
      fun w => inStr w q) then "CREATE_EVENT"
  else if inStr "list" q || inStr "upcoming" q then "LIST_EVENTS"
  else if inStr "calendar" q || inStr "event" q || inStr "events" q then "LIST_EVENTS"
  else if inStr "details" q then "GET_EVENT_DETAILS"
  else if inStr "search" q then "SEARCH_EVENTS"
  else "RAG_ONLY"

/-- `detect_ambiguity(query)`: raw substring checks over the query (not lowercased). -/
def detect_ambiguity (query : String) : List String :=
  let dayTokens := ["monday", "tuesday", "wednesday", "thursday", "friday",
    "saturday", "sunday"]
  if (["schedule", "create", "make", "add", "book"].any fun w => inStr w query) then
    (if !inStr "am" query && !inStr "pm" query && !inStr ":" query &&
        !((["today", "tomorrow", "yesterday"] ++ dayTokens).any fun d => inStr d query)
     then ["time"] else []) ++
    (if !inStr "today" query && !inStr "tomorrow" query && !inStr "-" query &&
        !(dayTokens.any fun d => inStr d query)
     then ["date"] else [])
  else []

/-- Python `MCP_URL.rstrip('/')`. -/
def rstripSlash (s : String) : String := ⟨(s.data.reverse.dropWhile (· = '/')).reverse⟩

/-- Python `tool_name.lstrip('/')`. -/
def lstripSlash (s : String) : String := ⟨s.data.dropWhile (· = '/')⟩

/-- The URL `call_tool` posts to: `f"{MCP_URL.rstrip('/')}/{tool_name.lstrip('/')}"`. -/
def toolUrl (mcpUrl tool_name : String) : String :=
  rstripSlash mcpUrl ++ "/" ++ lstripSlash tool_name

/-- Outcome of the HTTP POST inside `call_tool`: either a decoded JSON payload
or a raised `requests.RequestException` carrying message `msg` (the source also
appends the response body to `msg` when one is available). -/
inductive WireResult (α : Type) where
  | ok : α → WireResult α
  | failed : String → WireResult α
deriving DecidableEq

/-- What `call_tool` hands back to its caller: the payload, or the ad hoc
`{"error": ...}` marker dict. -/
inductive ToolResult (α : Type) where
  | payload : α → ToolResult α
  | errDict : String → ToolResult α
deriving DecidableEq

/-- `call_tool(tool_name, payload)`: a request failure is caught and turned
into a structured error dict; it is never re-raised. -/
def call_tool {α : Type} (mcpUrl tool_name : String) (wire : WireResult α) :
    ToolResult α :=
  match wire with
  | .ok p => .payload p
  | .failed m =>
    .errDict ("Failed to reach MCP tool '" ++ tool_name ++ "' at "
      ++ toolUrl mcpUrl tool_name ++ ": " ++ m)

/-! ## `backend/main.py` -/

/-- A provider-native Google event as consumed by `_normalize_events`
(each field is the result of `e.get(...)`, `none` when absent). -/
structure PEvent where
  id : Option String
  summary : Option String
  startDateTime : Option String
  startDate : Option String
  endDateTime : Option String
  endDate : Option String
  location : Option String
  htmlLink : Option String
  status : Option String
deriving DecidableEq

/-- Python `a or b` on optional strings (`None` and `""` are falsy). -/
def pyOr (a b : Option String) : Option String :=
  match a with
  | some s => if s = "" then b else some s
  | none => b

/-- Python `a or d` with a string default. -/
def pyOrD (a : Option String) (d : String) : String :=
  match a with
  | some s => if s = "" then d else s
  | none => d

/-- One record of `_normalize_events`' output (`end` is spelled `stop`). -/
structure NormEvent where
  id : Option String
  title : String
  start : Option String
  stop : Option String
  location : String
  link : String
  status : String
deriving DecidableEq

/-- Field-coalescing for one event. -/
def normalizeEvent (e : PEvent) : NormEvent :=
  { id := e.id
    title := pyOrD e.summary "(No title)"
    start := pyOr e.startDateTime e.startDate
    stop := pyOr e.endDateTime e.endDate
    location := pyOrD e.location ""
    link := pyOrD e.htmlLink ""
    status := pyOrD e.status "" }

/-- `_normalize_events(events)` on a list payload (non-dict entries and
non-list payloads, which the source skips, are excluded by typing). -/
def normalize_events (events : List PEvent) : List NormEvent :=
  events.map normalizeEvent

/-- The fields of the early-failure response of `query_agent` that the spec's
error-handling contract is about. -/
structure QueryFailResp where
  answer : String
  confidence : ℚ
  result : String
deriving DecidableEq

/-- Where `query_agent` stands after the initial `list_events` tool call:
either it already returned the structured failure response, or it proceeds
with the normalized events. -/
inductive QueryStep where
  | fail : QueryFailResp → QueryStep
  | proceed : List NormEvent → QueryStep
deriving DecidableEq

/-- `query_agent`'s handling of the `list_events` result (main.py lines
163–183): an error dict becomes a structured FAIL answer with confidence 0;
a payload is normalized and the pipeline continues. -/
def queryAgentList (tool_data : ToolResult (List PEvent)) : QueryStep :=
  match tool_data with
  | .errDict e =>
    .fail ⟨"Calendar integration is not available: " ++ e
      ++ ". Connect Google Calendar (OAuth) and ensure the MCP server is running.",
      0, "FAIL"⟩
  | .payload evs => .proceed (normalize_events evs)

/-- Discriminator: did `query_agent` take the early-failure branch? -/
def QueryStep.isFail : QueryStep → Bool
  | .fail _ => true
  | .proceed _ => false

/-! ### Creation slot extraction (`query_agent`'s CREATE_EVENT branch)

Each regular expression of the source is hand-compiled to a scanner with
Python's leftmost-match, greedy/lazy and backtracking semantics. -/

/-- Value of an ASCII digit. -/
def dVal (c : Char) : ℕ := c.toNat - 48

/-- A `datetime.date` value relative to the (abstract) current day:
`rel k` is `date.today() + timedelta(days=k)`, `abs y m d` is `date(y, m, d)`. -/
inductive DateVal where
  | rel : ℕ → DateVal
  | abs : ℕ → ℕ → ℕ → DateVal
deriving DecidableEq

/-- Gregorian leap year, as `datetime` uses. -/
def isLeap (y : ℕ) : Bool := (y % 4 == 0) && (y % 100 != 0 || y % 400 == 0)

/-- Days in a month, as `datetime` uses. -/
def daysInMonth (y m : ℕ) : ℕ :=
  if m = 2 then (if isLeap y then 29 else 28)
  else if m = 4 ∨ m = 6 ∨ m = 9 ∨ m = 11 then 30
  else 31

/-- `datetime.date(y, m, d)`: `none` when the constructor raises. -/
def mkDate (y m d : ℕ) : Option DateVal :=
  if 1 ≤ y ∧ y ≤ 9999 ∧ 1 ≤ m ∧ m ≤ 12 ∧ 1 ≤ d ∧ d ≤ daysInMonth y m
  then some (.abs y m d) else none

/-- Match `\d{4}X\d{2}X\d{2}` at the head, where `X` is `-`
(or also `/` when `slashToo` is set, for the dash-or-slash class of the second pass). -/
def isoAt (slashToo : Bool) (s : List Char) : Option (ℕ × ℕ × ℕ) :=
  match s with
  | a :: b :: c :: d :: s1 :: e :: f :: s2 :: g :: h :: _ =>
    if a.isDigit && b.isDigit && c.isDigit && d.isDigit
        && (s1 == '-' || (slashToo && s1 == '/'))
        && e.isDigit && f.isDigit
        && (s2 == '-' || (slashToo && s2 == '/'))
        && g.isDigit && h.isDigit then
      some (dVal a * 1000 + dVal b * 100 + dVal c * 10 + dVal d,
            dVal e * 10 + dVal f, dVal g * 10 + dVal h)
    else none
  | _ => none

/-- Leftmost match of the explicit-date regex (`re.search`). -/
def isoSearch (slashToo : Bool) : List Char → Option (ℕ × ℕ × ℕ)
  | [] => none
  | c :: rest =>
    match isoAt slashToo (c :: rest) with
    | some r => some r
    | none => isoSearch slashToo rest

/-- First date pass (main.py lines 204–218): `today`, `tomorrow`, else the
strict `\d{4}-\d{2}-\d{2}` regex fed to `datetime.date`. -/
def datePass1 (q : List Char) : Option DateVal :=
  if inStr "today" ⟨q⟩ then some (.rel 0)
  else if inStr "tomorrow" ⟨q⟩ then some (.rel 1)
  else match isoSearch false q with
    | some (y, m, d) => mkDate y m d
    | none => none

/-- Second date pass (main.py lines 224–240), run only when the first found
nothing: same `today`/`tomorrow` checks, then the dash-or-slash date regex. -/
def datePass2 (q : List Char) : Option DateVal :=
  if inStr "today" ⟨q⟩ then some (.rel 0)
  else if inStr "tomorrow" ⟨q⟩ then some (.rel 1)
  else match isoSearch true q with
    | some (y, m, d) => mkDate y m d
    | none => none

/-- Match the time regex
`(\d{1,2}(?::\d{2})?\s*(?:am|pm)?)|((?:\d{1,2}:\d{2}))` at the head of `s`,
returning the matched length.  The first alternative matches at any digit, so
it always wins; each optional piece is greedy and the trailing `\s*` is part
of the match even when no `am`/`pm` follows. -/
def timeAtHead (s : List Char) : Option ℕ :=
  match s with
  | [] => none
  | c :: rest =>
    if c.isDigit then
      let d2 := match rest with
        | d :: _ => if d.isDigit then 1 else 0
        | [] => 0
      let after1 := rest.drop d2
      let c3 := match after1 with
        | ':' :: a :: b :: _ => if a.isDigit && b.isDigit then 3 else 0
        | _ => 0
      let after2 := after1.drop c3
      let sp := (after2.takeWhile isSp).length
      let after3 := after2.drop sp
      let ap := match after3 with
        | 'a' :: 'm' :: _ => 2
        | 'p' :: 'm' :: _ => 2
        | _ => 0
      some (1 + d2 + c3 + sp + ap)
    else none

/-- `re.search` for the time regex: leftmost match as `(position, length)`. -/
def timeSearch : List Char → ℕ → Option (ℕ × ℕ)
  | [], _ => none
  | c :: rest, pos =>
    match timeAtHead (c :: rest) with
    | some n => some (pos, n)
    | none => timeSearch rest (pos + 1)

/-- `parse_time(tok)`: strip, then
`re.match(r"(\d{1,2})(?::(\d{2}))?\s*(am|pm)?", tok)` and the am/pm
adjustment; returns the `(hour, minute)` pair that is then formatted. -/
def parse_time (tok : List Char) : Option (ℕ × ℕ) :=
  let t := stripChars tok
  match t with
  | [] => none
  | c :: rest =>
    if c.isDigit then
      let d2 := match rest with
        | d :: _ => if d.isDigit then 1 else 0
        | [] => 0
      let h0 := if d2 = 1 then dVal c * 10 + dVal (rest.headD '0') else dVal c
      let after1 := rest.drop d2
      let mm := match after1 with
        | ':' :: a :: b :: _ => if a.isDigit && b.isDigit then dVal a * 10 + dVal b else 0
        | _ => 0
      let c3 := match after1 with
        | ':' :: a :: b :: _ => if a.isDigit && b.isDigit then 3 else 0
        | _ => 0
      let after2 := (after1.drop c3).dropWhile isSp
      let ampm : Option Bool := match after2 with
        | 'a' :: 'm' :: _ => some false
        | 'p' :: 'm' :: _ => some true
        | _ => none
      let h1 := if ampm = some true ∧ h0 < 12 then h0 + 12 else h0
      let h2 := if ampm = some false ∧ h0 = 12 then 0 else h1
      some (h2, mm)
    else none

/-- `f"{h:02d}:{mm:02d}"`. -/
def fmtTime (h m : ℕ) : String := pad2 h ++ ":" ++ pad2 m

/-- Terminator `(?:\s+at\s+|\s+in\s+|$)` of the title-marker regex, tested at
a fixed position. -/
def termAt (t : List Char) : Bool :=
  match t with
  | [] => true
  | _ =>
    let sp := (t.takeWhile isSp).length
    if sp = 0 then false
    else
      let u := t.drop sp
      (ciPre "at".data u || ciPre "in".data u) &&
        ((u.drop 2).takeWhile isSp).length != 0

/-- Lazy capture `([\w\s]+?)` before `termAt`: the minimal number `j ≥ 1` of
leading `[\w\s]` characters after which the terminator matches.  `j` counts
the characters already captured. -/
def capGo (j : ℕ) : List Char → Option ℕ
  | [] => if 1 ≤ j then some j else none
  | c :: rest =>
    if 1 ≤ j && termAt (c :: rest) then some j
    else if isWdSp c then capGo (j + 1) rest
    else none

/-- Backtracking over the length of the mandatory `\s+` after the title
marker: the regex engine tries the greedy (longest) whitespace run first and
gives characters back to the capture one at a time. -/
def tryCap (r : List Char) : ℕ → Option (List Char)
  | 0 => none
  | k + 1 =>
    match capGo 0 (r.drop (k + 1)) with
    | some j => some ((r.drop (k + 1)).take j)
    | none => tryCap r k

/-- Try `(?:named|titled|called)\s+([\w\s]+?)(?:\s+at\s+|\s+in\s+|$)` (with
`re.I`) at the head of `s`; returns the raw capture. -/
def markerAt (s : List Char) : Option (List Char) :=
  match ["named", "titled", "called"].find? (fun mk => ciPre mk.data s) with
  | some mk =>
    let r := s.drop mk.length
    tryCap r (r.takeWhile isSp).length
  | none => none

/-- `re.search` for the title-marker regex. -/
def markerSearch : List Char → Option (List Char)
  | [] => none
  | c :: rest =>
    match markerAt (c :: rest) with
    | some cap => some cap
    | none => markerSearch rest

/-- Match `\s*(?:is|:)??\s*([\w\s]+)$` against the whole of `r`, returning
`group(1).strip()`.  The optional `(?:is|:)` is lazy, so it is skipped
whenever the remainder alone can serve as the (end-anchored) capture. -/
def fb2Try (r : List Char) : Option (List Char) :=
  let t := r.dropWhile isSp
  if t ≠ [] ∧ t.all isWdSp then some (stripChars t)
  else if t = [] ∧ r ≠ [] then some []
  else if ciPre "is".data t then
    let u := t.drop 2
    let w := u.dropWhile isSp
    if w ≠ [] ∧ w.all isWdSp then some (stripChars w)
    else if w = [] ∧ u ≠ [] then some []
    else none
  else if hasPre ":".data t then
    let u := t.drop 1
    let w := u.dropWhile isSp
    if w ≠ [] ∧ w.all isWdSp then some (stripChars w)
    else if w = [] ∧ u ≠ [] then some []
    else none
  else none

/-- Try `title(?:d)?\s*(?:is|:)??\s*([\w\s]+)$` (with `re.I`) at the head:
the greedy optional `d` is consumed first and given back on failure. -/
def fb2At (s : List Char) : Option (List Char) :=
  if ciPre "title".data s then
    let r0 := s.drop 5
    match (match r0 with
           | c :: rest => if c.toLower = 'd' then fb2Try rest else none
           | [] => none) with
    | some cap => some cap
    | none => fb2Try r0
  else none

/-- `re.search` for the `title` fallback regex. -/
def fb2Search : List Char → Option (List Char)
  | [] => none
  | c :: rest =>
    match fb2At (c :: rest) with
    | some cap => some cap
    | none => fb2Search rest

/-- `re.sub(r"^(for|on|at)\s+", "", rem, flags=re.I)`: anchored, so at most
one removal; the alternation needs at least one following space. -/
def sf1 (r : List Char) : List Char :=
  let tryW := fun (w : String) =>
    if ciPre w.data r then
      let u := r.drop w.length
      let sp := (u.takeWhile isSp).length
      if sp ≠ 0 then some (u.drop sp) else none
    else none
  ((tryW "for") <|> (tryW "on") <|> (tryW "at")).getD r

/-- `re.sub(r"^(titled|titeled|title|named|called)\s*[:\-]?\s*", "", rem,
flags=re.I)`: alternatives tried in the written order (`titled` before
`title`); the trailing pieces are all optional. -/
def sf2 (r : List Char) : List Char :=
  match ["titled", "titeled", "title", "named", "called"].find?
      (fun w => ciPre w.data r) with
  | some w =>
    let u := r.drop w.length
    let u1 := u.drop (u.takeWhile isSp).length
    let u2 := match u1 with
      | c :: t => if c == ':' || c == '-' then t else u1
      | [] => u1
    u2.drop (u2.takeWhile isSp).length
  | none => r

/-- The after-time title heuristic (main.py lines 288–300): slice the query
after the time match, strip fillers, keep up to 8 words.  `none` when the
remainder has no words (the source then leaves `title` unchanged). -/
def remTitle (query : List Char) (timeEnd : ℕ) : Option (List Char) :=
  let rem0 := stripChars (query.drop timeEnd)
  let rem1 := stripChars (sf1 rem0)
  let rem2 := stripChars (sf2 rem1)
  let ws := wordsOf rem2
  if ws ≠ [] then some (stripChars (joinW (ws.take 8))) else none

/-- The tail `\s+([\w\s]+)$` of the location regexes, matched right after the
keyword; greedy whitespace gives one character back when the capture would
otherwise be empty. -/
def locCapAt (u : List Char) : Option (List Char) :=
  let sp := (u.takeWhile isSp).length
  if sp = 0 then none
  else
    let cap := u.drop sp
    if cap ≠ [] ∧ cap.all isWdSp then some (stripChars cap)
    else if cap = [] ∧ 2 ≤ sp then some []
    else none

/-- `re.search(r"\bat\s+([\w\s]+)$", query, re.I)`: `prev` is the character
before the current position, for the word-boundary test. -/
def locSearchAt (prev : Option Char) : List Char → Option (List Char)
  | [] => none
  | c :: rest =>
    match (if (match prev with | none => true | some p => !isWd p)
              && ciPre "at".data (c :: rest)
           then locCapAt ((c :: rest).drop 2) else none) with
    | some cap => some cap
    | none => locSearchAt (some c) rest

/-- `re.search(r"in\s+([\w\s]+)$", query, re.I)` (no word boundary). -/
def locSearchIn : List Char → Option (List Char)
  | [] => none
  | c :: rest =>
    match (if ciPre "in".data (c :: rest)
           then locCapAt ((c :: rest).drop 2) else none) with
    | some cap => some cap
    | none => locSearchIn rest

/-- The slot set assembled by `query_agent`'s CREATE_EVENT branch, together
with the `missing` list it computes. -/
structure CreationSlots where
  title : Option String
  date : Option DateVal
  start_time : Option String
  end_time : Option String
  location : Option String
  missing : List String
deriving DecidableEq

/-- The creation slot extraction of `query_agent` (main.py lines 195–318):
date (two passes), first time token + `parse_time`, end time = start + 1 hour
mod 24, title via marker regex / `title` keyword regex / after-time heuristic,
trailing location, and the missing-field list (empty-string values are falsy
and so count as missing, as in Python). -/
def extractCreationSlots (query : String) : CreationSlots :=
  let q := (lowStr query).data
  let d1 := datePass1 q
  let ev_date := match d1 with
    | some d => some d
    | none => datePass2 q
  let tm := timeSearch q 0
  let time_token := tm.map fun p => (q.drop p.1).take p.2
  let st := match time_token with
    | some tok => parse_time tok
    | none => none
  let start_time := st.map fun p => fmtTime p.1 p.2
  let end_time := st.map fun p => fmtTime ((p.1 + 1) % 24) p.2
  let t1 := (markerSearch query.data).map stripChars
  let t2 := match t1 with
    | some cap => some cap
    | none => fb2Search query.data
  let title := if (match t2 with | none => true | some cap => cap.isEmpty) then
      match tm with
      | some p =>
        match remTitle query.data (p.1 + p.2) with
        | some cap => some cap
        | none => t2
      | none => t2
    else t2
  let location := match locSearchAt none query.data with
    | some cap => some cap
    | none => locSearchIn query.data
  let missing :=
    (if ev_date.isNone then ["date"] else []) ++
    (if start_time.isNone then ["time"] else []) ++
    (if (match title with | none => true | some cap => cap.isEmpty) then ["title"] else [])
  { title := title.map fun cap => (⟨cap⟩ : String)
    date := ev_date
    start_time := start_time
    end_time := end_time
    location := location.map fun cap => (⟨cap⟩ : String)
    missing := missing }

/-! ## `mcp/google_calendar_server.py` (`create_event` conflict handling) -/

/-- A time window in minutes (`start`, `stop` = start/end instants). -/
structure TimeWin where
  start : ℤ
  stop : ℤ
deriving DecidableEq

/-- The `i`-th probed candidate window: `base + timedelta(hours=i)` with the
requested duration `dur = end - start` preserved. -/
def candWindow (base dur : ℤ) (i : ℕ) : TimeWin :=
  ⟨base + 60 * i, base + 60 * i + dur⟩

/-- Busy list obtained for candidate `i`: a freebusy `Exception` makes the
source substitute the nonempty sentinel `[1]`, i.e. "treat as busy". -/
def probedBusy (probe : ℕ → Option (List TimeWin)) (i : ℕ) : List TimeWin :=
  match probe i with
  | some b => b
  | none => [⟨0, 0⟩]

/-- The `for i in range(1, 6)` suggestion loop: append the candidate when its
probe returned no busy interval, stop as soon as 3 suggestions are collected. -/
def suggestLoop (probe : ℕ → Option (List TimeWin)) (base dur : ℤ) :
    List ℕ → List TimeWin → List TimeWin
  | [], acc => acc
  | i :: rest, acc =>
    let cand_busy := probedBusy probe i
    let acc2 := if cand_busy = [] then acc ++ [candWindow base dur i] else acc
    if 3 ≤ acc2.length then acc2 else suggestLoop probe base dur rest acc2

/-- The suggestion list computed on conflict. -/
def suggestions (probe : ℕ → Option (List TimeWin)) (base dur : ℤ) :
    List TimeWin :=
  suggestLoop probe base dur [1, 2, 3, 4, 5] []

/-- Result of `create_event` after the freebusy check of the requested
window. -/
inductive CreateOutcome where
  | conflict : List TimeWin → List TimeWin → CreateOutcome
  | created : CreateOutcome
deriving DecidableEq

/-- `create_event`'s conflict branch: `busy` is the freebusy result for the
requested window (`base`, `base + dur`); on conflict the response carries the
busy intervals and the probed suggestions, otherwise the event is inserted. -/
def create_event (busy : List TimeWin) (probe : ℕ → Option (List TimeWin))
    (base dur : ℤ) : CreateOutcome :=
  if busy = [] then .created
  else .conflict busy (suggestions probe base dur)

/-! ## Ordering facts about `argsort`-based retrieval -/

/-- The strict ascending order `argsort` realises on indices:
smaller score first, ties in ascending index order (stability). -/
def ltIdx (scores : List ℚ) (a b : ℕ) : Prop :=
  scAt scores a < scAt scores b ∨ (scAt scores a = scAt scores b ∧ a < b)

lemma mem_insertAsc {scores : List ℚ} {x : ℕ} :
    ∀ {l : List ℕ} {z : ℕ}, z ∈ insertAsc scores x l ↔ z = x ∨ z ∈ l := by
  intro l
  induction l with
  | nil => intro z; simp [insertAsc]
  | cons y ys ih =>
    intro z
    simp only [insertAsc]
    split
    · simp [List.mem_cons]
    · simp only [List.mem_cons, ih]
      tauto

lemma pairwise_insertAsc {scores : List ℚ} {x : ℕ} :
    ∀ {l : List ℕ}, l.Pairwise (ltIdx scores) → (∀ y ∈ l, y < x) →
      (insertAsc scores x l).Pairwise (ltIdx scores) := by
  intro l
  induction l with
  | nil => intro _ _; simp [insertAsc, List.Pairwise]
  | cons y ys ih =>
    intro hp hlt
    rcases List.pairwise_cons.mp hp with ⟨hy, hys⟩
    simp only [insertAsc]
    split
    · next hxy =>
      refine List.pairwise_cons.mpr ⟨?_, hp⟩
      intro z hz
      rcases List.mem_cons.mp hz with rfl | hzys
      · exact Or.inl hxy
      · rcases hy z hzys with h | ⟨he, _⟩
        · exact Or.inl (lt_of_lt_of_le hxy (le_of_lt h))
        · exact Or.inl (he ▸ hxy)
    · next hxy =>
      refine List.pairwise_cons.mpr ⟨?_, ih hys (fun z hz => hlt z (List.mem_cons_of_mem y hz))⟩
      intro z hz
      rcases mem_insertAsc.mp hz with rfl | hzys
      · rcases lt_or_eq_of_le (not_lt.mp hxy) with h | h
        · exact Or.inl h
        · exact Or.inr ⟨h, hlt y (List.mem_cons_self y ys)⟩
      · exact hy z hzys

lemma pairwise_argsort_fold {scores : List ℚ} :
    ∀ (l acc : List ℕ), acc.Pairwise (ltIdx scores) →
      (∀ y ∈ acc, ∀ i ∈ l, y < i) → l.Pairwise (· < ·) →
      (l.foldl (fun a i => insertAsc scores i a) acc).Pairwise (ltIdx scores) := by
  intro l
  induction l with
  | nil => intro acc hp _ _; simpa using hp
  | cons i rest ih =>
    intro acc hp hcross hl
    rcases List.pairwise_cons.mp hl with ⟨hi, hrest⟩
    simp only [List.foldl_cons]
    refine ih _ (pairwise_insertAsc hp (fun y hy => hcross y hy i (List.mem_cons_self i rest)))
      ?_ hrest
    intro y hy j hj
    rcases mem_insertAsc.mp hy with rfl | hyacc
    · exact hi j hj
    · exact hcross y hyacc j (List.mem_cons_of_mem i hj)

lemma pairwise_argsort (scores : List ℚ) : (argsort scores).Pairwise (ltIdx scores) := by
  unfold argsort
  exact pairwise_argsort_fold _ [] (List.Pairwise.nil) (by simp)
    (List.pairwise_lt_range _)

lemma pairwise_sliceLast {l : List ℕ} {R : ℕ → ℕ → Prop} (h : l.Pairwise R) (k : ℕ) :
    (sliceLast l k).Pairwise R := by
  unfold sliceLast
  split
  · exact h
  · exact h.sublist (List.drop_sublist _ _)

lemma length_sliceLast_le {l : List ℕ} {k : ℕ} (hk : 1 ≤ k) :
    (sliceLast l k).length ≤ k := by
  unfold sliceLast
  split
  · omega
  · simp only [List.length_drop]; omega

lemma pairwise_filterMap_of {α β : Type} {S : α → α → Prop} {T : β → β → Prop}
    (f : α → Option β)
    (hf : ∀ a b x y, S a b → f a = some x → f b = some y → T x y) :
    ∀ {l : List α}, l.Pairwise S → (l.filterMap f).Pairwise T := by
  intro l
  induction l with
  | nil => intro _; simp
  | cons a rest ih =>
    intro hp
    rcases List.pairwise_cons.mp hp with ⟨ha, hrest⟩
    rw [List.filterMap_cons]
    cases hfa : f a with
    | none => exact ih hrest
    | some b =>
      refine List.pairwise_cons.mpr ⟨?_, ih hrest⟩
      intro y hy
      rcases List.mem_filterMap.mp hy with ⟨c, hc, hfc⟩
      exact hf a c b y (ha c hc) hfa hfc

/-! ## Helper lemmas -/

lemma pymax_eq_max (a b : ℚ) : pymax a b = max a b := by
  unfold pymax
  exact (max_def a b).symm

lemma le_foldl_pymax_init : ∀ (t : List ℚ) (a : ℚ), a ≤ t.foldl pymax a := by
  intro t
  induction t with
  | nil => intro a; simp
  | cons b u ih =>
    intro a
    calc a ≤ pymax a b := by rw [pymax_eq_max]; exact le_max_left a b
      _ ≤ u.foldl pymax (pymax a b) := ih _

lemma mem_le_foldl_pymax {x : ℚ} :
    ∀ {t : List ℚ} (a : ℚ), x ∈ t → x ≤ t.foldl pymax a := by
  intro t
  induction t with
  | nil => intro a h; cases h
  | cons b u ih =>
    intro a h
    rcases List.mem_cons.mp h with rfl | hm
    · calc x ≤ pymax a x := by rw [pymax_eq_max]; exact le_max_right a x
        _ ≤ u.foldl pymax (pymax a x) := le_foldl_pymax_init u _
    · exact ih _ hm

lemma le_maxScore {x : ℚ} {scores : List ℚ} (h : x ∈ scores) : x ≤ maxScore scores := by
  cases scores with
  | nil => cases h
  | cons a t =>
    rcases List.mem_cons.mp h with rfl | hm
    · exact le_foldl_pymax_init t x
    · exact mem_le_foldl_pymax a hm

lemma hasPre_self_append : ∀ (p r : List Char), hasPre p (p ++ r) = true := by
  intro p
  induction p with
  | nil => intro r; rfl
  | cons a as ih => intro r; simp [hasPre, ih]

lemma hasSub_middle : ∀ (l p r : List Char), hasSub p (l ++ p ++ r) = true := by
  intro l
  induction l with
  | nil =>
    intro p r
    cases p with
    | nil =>
      cases r with
      | nil => rfl
      | cons c cs => simp [hasSub, hasPre]
    | cons c cs =>
      have h := hasPre_self_append (c :: cs) r
      simp only [List.cons_append] at h
      simp [hasSub, h]
  | cons c cs ih =>
    intro p r
    have : (c :: cs) ++ p ++ r = c :: (cs ++ p ++ r) := by simp
    rw [this]
    cases hp : cs ++ p ++ r with
    | nil => simp_all [hasSub]
    | cons d ds =>
      show (hasPre p (c :: d :: ds) || hasSub p (d :: ds)) = true
      have := ih p r
      rw [hp] at this
      simp [this]

/-! ## Claim theorems -/

/-- **C5.** For every query (i.e. every score row the embedding collaborator
can produce), `retrieve_kb` returns at most `top_k` hits and never a hit whose
score is below `threshold`; it may return fewer than `top_k`, including zero
(witnessed by the closed instance in the last conjunct where the single chunk
scores below threshold). -/
theorem retrieve_kb_threshold_topk (kb_chunks : List KBChunk) (scores : List ℚ)
    (top_k : ℕ) (threshold : ℚ) (htk : 1 ≤ top_k) :
    (retrieve_kb kb_chunks scores top_k threshold).length ≤ top_k ∧
    (∀ h ∈ retrieve_kb kb_chunks scores top_k threshold, threshold ≤ h.score) ∧
    retrieve_kb [⟨"doc", "doc", 0, "text"⟩] [(0 : ℚ)] 4 2 = [] := by
  refine ⟨?_, ?_, by decide⟩
  · unfold retrieve_kb
    split
    · simp
    · calc (((sliceLast (argsort scores) top_k).reverse).filterMap _).length
          ≤ ((sliceLast (argsort scores) top_k).reverse).length :=
            List.length_filterMap_le _ _
        _ = (sliceLast (argsort scores) top_k).length := List.length_reverse _
        _ ≤ top_k := length_sliceLast_le htk
  · intro h hm
    unfold retrieve_kb at hm
    split at hm
    · simp at hm
    · rcases List.mem_filterMap.mp hm with ⟨i, _, hfi⟩
      by_cases hc : threshold ≤ scAt scores i
      · rw [if_pos hc] at hfi
        cases hfi
        exact hc
      · rw [if_neg hc] at hfi
        cases hfi

/-- **C5 witness.** The guarantees at a concrete instance. -/
theorem retrieve_kb_threshold_topk_witness :
    1 ≤ 2 ∧
    ((retrieve_kb [⟨"a", "f", 0, "x"⟩] [(1 : ℚ)] 2 0).length ≤ 2 ∧
     (∀ h ∈ retrieve_kb [⟨"a", "f", 0, "x"⟩] [(1 : ℚ)] 2 0, (0 : ℚ) ≤ h.score) ∧
     retrieve_kb [⟨"doc", "doc", 0, "text"⟩] [(0 : ℚ)] 4 2 = []) :=
  ⟨by decide, retrieve_kb_threshold_topk [⟨"a", "f", 0, "x"⟩] [(1 : ℚ)] 2 0 (by decide)⟩

/-- **C4 counterexample.** Two chunks with equal scores: `argsort` (stable
ascending) followed by the `[::-1]` reversal puts the *later* chunk first, so
with a tie the earlier-indexed chunk does **not** come first as claimed. -/
theorem retrieve_kb_tie_cex :
    (retrieve_kb [⟨"a", "f", 0, "x"⟩, ⟨"b", "f", 1, "y"⟩] [(1 : ℚ), 1] 4 0).map
        (fun h => h.index) = [1, 0] ∧
    ([1, 0] : List ℕ) ≠ [0, 1] := by
  exact ⟨by decide, by decide⟩

/-- **C4 (amended).** `retrieve_kb` returns its hits in non-increasing
(descending) score order.  The tie order among equal scores is whatever
`np.argsort`'s unstable default sort yields and in particular is *not* the
claimed earlier-chunk-first order: with two equal-scoring chunks the
later-indexed one comes first (see the counterexample).  This theorem states
the score-descending guarantee, which is invariant under permuting equal
scores and therefore independent of the sort's tie behaviour. -/
theorem retrieve_kb_sorted (kb_chunks : List KBChunk) (scores : List ℚ)
    (top_k : ℕ) (threshold : ℚ) :
    (retrieve_kb kb_chunks scores top_k threshold).Pairwise
      (fun h1 h2 => h2.score ≤ h1.score) := by
  unfold retrieve_kb
  split
  · simp
  · have hasc : (argsort scores).Pairwise (fun a b => scAt scores a ≤ scAt scores b) := by
      refine (pairwise_argsort scores).imp ?_
      intro a b hab
      rcases hab with h | ⟨he, _⟩
      · exact le_of_lt h
      · exact le_of_eq he
    have hpair : ((sliceLast (argsort scores) top_k).reverse).Pairwise
        (fun a b => scAt scores b ≤ scAt scores a) := by
      rw [List.pairwise_reverse]
      exact pairwise_sliceLast hasc top_k
    refine pairwise_filterMap_of _ ?_ hpair
    intro a b x y hS hfa hfb
    by_cases ha : threshold ≤ scAt scores a
    · rw [if_pos ha] at hfa
      by_cases hb : threshold ≤ scAt scores b
      · rw [if_pos hb] at hfb
        cases hfa
        cases hfb
        exact hS
      · rw [if_neg hb] at hfb; cases hfb
    · rw [if_neg ha] at hfa; cases hfa

/-- **C2.** For every query and nonempty event list (one cosine score per
event): if even the best score is below `threshold` the result is empty;
every returned hit scores at least `threshold` and at least
`maxScore * min_rel`; and at most `top_k` hits are returned. -/
theorem retrieve_events_guarantees (scores : List ℚ) (top_k : ℕ)
    (threshold min_rel : ℚ) (hne : scores ≠ []) (htk : 1 ≤ top_k) :
    (maxScore scores < threshold → retrieve_events scores top_k threshold min_rel = []) ∧
    (∀ h ∈ retrieve_events scores top_k threshold min_rel,
      threshold ≤ h.score ∧ maxScore scores * min_rel ≤ h.score) ∧
    (retrieve_events scores top_k threshold min_rel).length ≤ top_k := by
  refine ⟨?_, ?_, ?_⟩
  · intro hlt
    unfold retrieve_events
    by_cases h0 : scores.length = 0
    · rw [if_pos h0]
    · rw [if_neg h0, if_pos hlt]
  · intro h hm
    unfold retrieve_events at hm
    split at hm
    · simp at hm
    · split at hm
      · simp at hm
      · rcases List.mem_filterMap.mp hm with ⟨i, _, hfi⟩
        by_cases hc : threshold ≤ scAt scores i ∧ maxScore scores * min_rel ≤ scAt scores i
        · rw [if_pos hc] at hfi
          cases hfi
          exact hc
        · rw [if_neg hc] at hfi
          cases hfi
  · unfold retrieve_events
    split
    · simp
    · split
      · simp
      · calc (((sliceLast (argsort scores) top_k).reverse).filterMap _).length
            ≤ ((sliceLast (argsort scores) top_k).reverse).length :=
              List.length_filterMap_le _ _
          _ = (sliceLast (argsort scores) top_k).length := List.length_reverse _
          _ ≤ top_k := length_sliceLast_le htk

/-- **C2 witness.** The guarantees at a concrete instance. -/
theorem retrieve_events_guarantees_witness :
    ([(2 : ℚ), 0] ≠ ([] : List ℚ)) ∧ 1 ≤ 1 ∧
    ((maxScore [(2 : ℚ), 0] < 1 → retrieve_events [(2 : ℚ), 0] 1 1 1 = []) ∧
     (∀ h ∈ retrieve_events [(2 : ℚ), 0] 1 1 1,
       (1 : ℚ) ≤ h.score ∧ maxScore [(2 : ℚ), 0] * 1 ≤ h.score) ∧
     (retrieve_events [(2 : ℚ), 0] 1 1 1).length ≤ 1) :=
  ⟨by decide, by decide,
    retrieve_events_guarantees [(2 : ℚ), 0] 1 1 1 (by decide) (by decide)⟩

/-- **C3 counterexample.** A cache whose metadata file holds two chunk
records while the vector file holds a single vector is internally
inconsistent, yet `_load_cache` still reports success and `startupIndex`
uses the cached pair instead of the rebuild. -/
theorem load_cache_mismatch_cex :
    load_cache (.good [(⟨"a", "f", 0, "x"⟩ : KBChunk), ⟨"b", "f", 1, "y"⟩])
        (.good [[(1 : ℚ)]]) =
      some ([⟨"a", "f", 0, "x"⟩, ⟨"b", "f", 1, "y"⟩], [[1]]) ∧
    [(⟨"a", "f", 0, "x"⟩ : KBChunk), ⟨"b", "f", 1, "y"⟩].length ≠ [[(1 : ℚ)]].length ∧
    startupIndex (.good [(⟨"a", "f", 0, "x"⟩ : KBChunk), ⟨"b", "f", 1, "y"⟩])
        (.good [[(1 : ℚ)]]) ([], []) =
      ([⟨"a", "f", 0, "x"⟩, ⟨"b", "f", 1, "y"⟩], [[1]]) := by
  exact ⟨by decide, by decide, by decide⟩

/-- **C3 (amended).** `_load_cache` performs no consistency check: whenever
both cache files exist and deserialize, the cache is loaded and the rebuild
skipped — regardless of whether the vector count matches the metadata count;
the load fails exactly when one of the files is missing or unreadable. -/
theorem load_cache_no_consistency (m : List KBChunk) (e : List (List ℚ))
    (rebuilt : List KBChunk × List (List ℚ)) :
    load_cache (.good m) (.good e) = some (m, e) ∧
    startupIndex (.good m) (.good e) rebuilt = (m, e) ∧
    (∀ (ms : FileState (List KBChunk)) (es : FileState (List (List ℚ))),
      load_cache ms es = none ↔ (∀ x, ms ≠ .good x) ∨ (∀ y, es ≠ .good y)) := by
  refine ⟨rfl, rfl, ?_⟩
  intro ms es
  cases ms <;> cases es <;> simp [load_cache]

/-- **C6.** On a busy conflict, `create_event` reports the busy intervals and
suggestions built from the five hourly-shifted probe windows: the suggestion
list is exactly the first 3 (in probing order) of the candidates whose
freebusy probe came back with zero busy intervals; every suggestion keeps the
requested duration; a probe error (`probe i = none`) is treated as busy, so
such a window is never suggested. -/
lemma probedBusy_empty_iff {probe : ℕ → Option (List TimeWin)} {i : ℕ} :
    (probedBusy probe i).isEmpty = true ↔ probe i = some [] := by
  unfold probedBusy
  cases h : probe i with
  | none => simp
  | some b => cases b <;> simp

lemma suggestLoop_eq (probe : ℕ → Option (List TimeWin)) (base dur : ℤ) :
    ∀ (l : List ℕ) (acc : List TimeWin), acc.length < 3 →
      suggestLoop probe base dur l acc =
        acc ++ ((l.filter fun i => (probedBusy probe i).isEmpty).map
          (candWindow base dur)).take (3 - acc.length) := by
  intro l
  induction l with
  | nil => intro acc _; simp [suggestLoop]
  | cons i rest ih =>
    intro acc hacc
    simp only [suggestLoop]
    by_cases hb : probedBusy probe i = []
    · rw [if_pos hb]
      have hbe : (probedBusy probe i).isEmpty = true := by simp [hb]
      by_cases h3 : 3 ≤ (acc ++ [candWindow base dur i]).length
      · rw [if_pos h3]
        have hlen : acc.length = 2 := by
          simp only [List.length_append, List.length_cons, List.length_nil] at h3
          omega
        have h31 : 3 - acc.length = 1 := by omega
        simp [List.filter_cons, hbe, h31]
      · rw [if_neg h3]
        have hlt : (acc ++ [candWindow base dur i]).length < 3 := by omega
        rw [ih _ hlt]
        have hs : 3 - acc.length = (3 - (acc ++ [candWindow base dur i]).length) + 1 := by
          simp only [List.length_append, List.length_cons, List.length_nil] at h3 ⊢
          omega
        rw [hs]
        simp [List.filter_cons, hbe, List.take_succ_cons]
    · rw [if_neg hb]
      have hbe : (probedBusy probe i).isEmpty = false := by
        cases h : probedBusy probe i with
        | nil => exact absurd h hb
        | cons a t => rfl
      rw [if_neg (by omega : ¬ 3 ≤ acc.length)]
      rw [ih _ hacc]
      simp [List.filter_cons, hbe]

theorem create_event_conflict_suggestions (busy : List TimeWin)
    (probe : ℕ → Option (List TimeWin)) (base dur : ℤ) (hb : busy ≠ []) :
    create_event busy probe base dur = .conflict busy (suggestions probe base dur) ∧
    suggestions probe base dur =
      ((([1, 2, 3, 4, 5].filter fun i => (probedBusy probe i).isEmpty).map
        (candWindow base dur)).take 3) ∧
    (suggestions probe base dur).length ≤ 3 ∧
    (∀ w ∈ suggestions probe base dur, ∃ i, 1 ≤ i ∧ i ≤ 5 ∧ probe i = some [] ∧
      w = candWindow base dur i ∧ w.stop - w.start = dur) ∧
    (∀ i, probe i = none → candWindow base dur i ∉ suggestions probe base dur) := by
  have hchar : suggestions probe base dur =
      ((([1, 2, 3, 4, 5].filter fun i => (probedBusy probe i).isEmpty).map
        (candWindow base dur)).take 3) := by
    have := suggestLoop_eq probe base dur [1, 2, 3, 4, 5] [] (by decide)
    simpa [suggestions] using this
  have hmem : ∀ w ∈ suggestions probe base dur, ∃ i, 1 ≤ i ∧ i ≤ 5 ∧
      probe i = some [] ∧ w = candWindow base dur i ∧ w.stop - w.start = dur := by
    intro w hw
    rw [hchar] at hw
    have hw2 := List.mem_of_mem_take hw
    rcases List.mem_map.mp hw2 with ⟨i, hif, hcw⟩
    rcases List.mem_filter.mp hif with ⟨hil, hie⟩
    have hpi : probe i = some [] := probedBusy_empty_iff.mp hie
    have hrange : 1 ≤ i ∧ i ≤ 5 := by
      simp only [List.mem_cons, List.not_mem_nil, or_false] at hil
      rcases hil with rfl | rfl | rfl | rfl | rfl <;> omega
    refine ⟨i, hrange.1, hrange.2, hpi, hcw.symm, ?_⟩
    rw [← hcw]
    simp [candWindow]
  refine ⟨?_, hchar, ?_, hmem, ?_⟩
  · unfold create_event
    rw [if_neg hb]
  · rw [hchar, List.length_take]
    exact Nat.min_le_left 3 _
  · intro i hnone hmem2
    rcases hmem (candWindow base dur i) hmem2 with ⟨j, _, _, hpj, hcand, _⟩
    have hij : i = j := by
      have hstart : base + 60 * (i : ℤ) = base + 60 * (j : ℤ) := by
        have := congrArg TimeWin.start hcand
        simpa [candWindow] using this
      have h60 : (60 : ℤ) * (i : ℤ) = 60 * (j : ℤ) := by omega
      have : (i : ℤ) = (j : ℤ) := by omega
      exact_mod_cast this
    rw [hij] at hnone
    rw [hnone] at hpj
    cases hpj

/-- **C6 witness.** The conflict contract at a concrete instance (one busy
interval, all probes free). -/
theorem create_event_conflict_suggestions_witness :
    ([(⟨0, 30⟩ : TimeWin)] ≠ []) ∧
    (create_event [⟨0, 30⟩] (fun _ => some []) 0 60 =
        .conflict [⟨0, 30⟩] (suggestions (fun _ => some []) 0 60) ∧
      suggestions (fun _ => some []) 0 60 =
        ((([1, 2, 3, 4, 5].filter fun i =>
            (probedBusy (fun _ => some []) i).isEmpty).map (candWindow 0 60)).take 3) ∧
      (suggestions (fun _ => some []) 0 60).length ≤ 3 ∧
      (∀ w ∈ suggestions (fun _ => some []) 0 60, ∃ i, 1 ≤ i ∧ i ≤ 5 ∧
        (fun _ => some ([] : List TimeWin)) i = some [] ∧
        w = candWindow 0 60 i ∧ w.stop - w.start = 60) ∧
      (∀ i, (fun _ => some ([] : List TimeWin)) i = none →
        candWindow 0 60 i ∉ suggestions (fun _ => some []) 0 60)) :=
  ⟨by decide,
    create_event_conflict_suggestions [⟨0, 30⟩] (fun _ => some []) 0 60 (by decide)⟩

lemma chunkLoop_total (words : List String) (cs ov : ℕ) (hov : ov < cs) :
    ∀ (fuel start : ℕ), start < words.length → words.length - start ≤ fuel →
      ∃ ws s, chunkLoop words cs ov fuel start = some ws ∧ start ≤ s ∧
        s < words.length ∧ ws ≠ [] ∧ ws.getLast? = some (words.drop s) := by
  intro fuel
  induction fuel with
  | zero => intro start h1 h2; omega
  | succ fuel ih =>
    intro start h1 h2
    by_cases he : min (start + cs) words.length = words.length
    · refine ⟨[(words.drop start).take (min (start + cs) words.length - start)], start,
        ?_, le_refl _, h1, by simp, ?_⟩
      · simp only [chunkLoop]
        rw [if_pos h1, if_pos he]
      · have hdrop : (words.drop start).take (min (start + cs) words.length - start)
            = words.drop start := by
          rw [he]
          exact List.take_of_length_le (by simp)
        rw [hdrop]
        simp
    · have hcsL : start + cs < words.length := by
        rcases Nat.lt_or_ge (start + cs) words.length with h | h
        · exact h
        · exact absurd (min_eq_right h) he
      have hmin : min (start + cs) words.length = start + cs :=
        min_eq_left (le_of_lt hcsL)
      have hcond : start + ov < min (start + cs) words.length := by rw [hmin]; omega
      have h1' : min (start + cs) words.length - ov < words.length := by
        rw [hmin]; omega
      have h2' : words.length - (min (start + cs) words.length - ov) ≤ fuel := by
        rw [hmin]; omega
      rcases ih (min (start + cs) words.length - ov) h1' h2' with
        ⟨ws, s, hws, hss, hsl, hne, hlast⟩
      refine ⟨(words.drop start).take (min (start + cs) words.length - start) :: ws, s,
        ?_, ?_, hsl, by simp, ?_⟩
      · simp only [chunkLoop]
        rw [if_pos h1, if_neg he, if_pos hcond, hws]
        rfl
      · rw [hmin] at hss
        omega
      · cases ws with
        | nil => exact absurd rfl hne
        | cons b t =>
          rw [List.getLast?_cons_cons]
          exact hlast

/-- **C7.** For every text and every `overlap < chunk_size`, `chunk_text`
terminates (the modelled loop returns within its fuel), and when the text has
any words at all the last emitted chunk is the join of a suffix of the word
list — it ends exactly at the final word, so no trailing words are dropped. -/
theorem chunk_text_reaches_end (text : String) (cs ov : ℕ) (hov : ov < cs) :
    ∃ cks, chunk_text text cs ov = some cks ∧
      (wordsOf text.data ≠ [] → cks ≠ [] ∧ ∃ s, s < (wordsOf text.data).length ∧
        cks.getLast? = some ⟨joinW ((wordsOf text.data).drop s)⟩) := by
  by_cases hw : (wordsOf text.data).map (fun w => (⟨w⟩ : String)) = []
  · refine ⟨[], ?_, ?_⟩
    · unfold chunk_text
      rw [if_pos hw]
    · intro hne
      exact absurd (List.map_eq_nil_iff.mp hw) hne
  · have hlen : 0 < ((wordsOf text.data).map (fun w => (⟨w⟩ : String))).length :=
      List.length_pos.mpr hw
    rcases chunkLoop_total ((wordsOf text.data).map (fun w => (⟨w⟩ : String))) cs ov hov
        (((wordsOf text.data).map (fun w => (⟨w⟩ : String))).length + 1) 0 hlen
        (by omega) with ⟨ws, s, hws, _, hsl, hne, hlast⟩
    refine ⟨ws.map (fun w => (⟨joinW (w.map String.data)⟩ : String)), ?_, ?_⟩
    · unfold chunk_text
      rw [if_neg hw, hws]
      rfl
    · intro _
      constructor
      · simp [hne]
      · refine ⟨s, by simpa using hsl, ?_⟩
        rw [List.getLast?_map, hlast]
        simp only [Option.map_some']
        congr 1
        congr 1
        rw [← List.map_drop, List.map_map]
        have hid : (String.data ∘ fun w => (⟨w⟩ : String)) = id := rfl
        rw [hid, List.map_id]

/-- **C7 witness.** Chunking `"a b c"` with size 2 and overlap 1. -/
theorem chunk_text_reaches_end_witness :
    1 < 2 ∧
    (∃ cks, chunk_text "a b c" 2 1 = some cks ∧
      (wordsOf "a b c".data ≠ [] → cks ≠ [] ∧ ∃ s, s < (wordsOf "a b c".data).length ∧
        cks.getLast? = some ⟨joinW ((wordsOf "a b c".data).drop s)⟩)) :=
  ⟨by decide, chunk_text_reaches_end "a b c" 2 1 (by decide)⟩

/-- **C8.** `evaluate_response` has exactly the two issue checks of the
source: its issue count equals the stated arithmetic characterization,
`confidence = max (0, 1 - issueCount/5)` and `pass ↔ issueCount = 0`; in
particular, empty docs with no tool use and an answer that does not mention
calendar data give confidence 4/5 = 0.8, pass `false`, and the single issue
"No RAG grounding". -/
theorem evaluate_response_formula (answer : String) (docs : List String) (tool : Bool) :
    (issuesOf answer docs tool).length =
      ((if docs = [] ∧ tool = false then 1 else 0) +
       (if (inStr "calendar data:" (lowStr answer)
            || inStr "google calendar" (lowStr answer)) = true ∧ tool = false
        then 1 else 0)) ∧
    (evaluate_response answer docs tool).confidence =
      max (0 : ℚ) (1 - (1/5 : ℚ) * ((((if docs = [] ∧ tool = false then 1 else 0) +
       (if (inStr "calendar data:" (lowStr answer)
            || inStr "google calendar" (lowStr answer)) = true ∧ tool = false
        then 1 else 0) : ℕ)) : ℚ)) ∧
    ((evaluate_response answer docs tool).pass = true ↔
      (issuesOf answer docs tool).length = 0) ∧
    (∀ a : String,
      (inStr "calendar data:" (lowStr a) || inStr "google calendar" (lowStr a)) = false →
      evaluate_response a [] false = ⟨4/5, "No RAG grounding", false⟩) := by
  have hlen : (issuesOf answer docs tool).length =
      ((if docs = [] ∧ tool = false then 1 else 0) +
       (if (inStr "calendar data:" (lowStr answer)
            || inStr "google calendar" (lowStr answer)) = true ∧ tool = false
        then 1 else 0)) := by
    unfold issuesOf
    split <;> split <;> simp
  refine ⟨hlen, ?_, ?_, ?_⟩
  · show pymax (1 - (1/5) * ((issuesOf answer docs tool).length : ℕ)) 0 = _
    rw [hlen, pymax_eq_max, max_comm]
  · show ((issuesOf answer docs tool).length == 0) = true ↔ _
    simp
  · intro a hma
    have hiss : issuesOf a [] false = ["No RAG grounding"] := by
      unfold issuesOf
      rw [if_pos ⟨rfl, rfl⟩, if_neg]
      · rfl
      · intro hc
        rw [hma] at hc
        exact Bool.false_ne_true hc.1
    show Verdict.mk _ _ _ = _
    rw [hiss]
    simp only [Verdict.mk.injEq]
    refine ⟨?_, by decide, by decide⟩
    show pymax (1 - (1/5) * (([("No RAG grounding" : String)]).length : ℕ)) 0 = 4/5
    rw [pymax_eq_max]
    norm_num

/-- **C8 witness.** The "in particular" case at the concrete answer
`"hello"`, which does not mention calendar data. -/
theorem evaluate_response_formula_witness :
    (inStr "calendar data:" (lowStr "hello")
      || inStr "google calendar" (lowStr "hello")) = false ∧
    evaluate_response "hello" [] false = ⟨4/5, "No RAG grounding", false⟩ :=
  ⟨by decide, (evaluate_response_formula "hello" [] false).2.2.2 "hello" (by decide)⟩

/-- **C9.** A provider request failure never escapes `call_tool`: it is
returned as a structured error dict whose message names the tool and the
URL (and carries the underlying message), and `query_agent` turns that
error dict into a structured FAIL response with confidence 0 — while a
successful call, even with zero events, proceeds normally, so the two are
distinguishable. -/
theorem call_tool_structured_failure (mcpUrl tool_name m : String)
    (evs : List PEvent) :
    (∃ s, call_tool mcpUrl tool_name (WireResult.failed m : WireResult (List PEvent)) =
        ToolResult.errDict s ∧
      hasSub tool_name.data s.data = true ∧
      hasSub (toolUrl mcpUrl tool_name).data s.data = true ∧
      hasSub m.data s.data = true) ∧
    (∃ a, queryAgentList (call_tool mcpUrl tool_name
        (WireResult.failed m : WireResult (List PEvent))) = .fail ⟨a, 0, "FAIL"⟩) ∧
    queryAgentList (call_tool mcpUrl tool_name (WireResult.ok evs)) =
      .proceed (normalize_events evs) ∧
    (queryAgentList (call_tool mcpUrl tool_name
      (WireResult.failed m : WireResult (List PEvent)))).isFail = true ∧
    (queryAgentList (call_tool mcpUrl tool_name (WireResult.ok evs))).isFail = false := by
  refine ⟨⟨"Failed to reach MCP tool '" ++ tool_name ++ "' at "
      ++ toolUrl mcpUrl tool_name ++ ": " ++ m, rfl, ?_, ?_, ?_⟩,
    ⟨"Calendar integration is not available: "
      ++ ("Failed to reach MCP tool '" ++ tool_name ++ "' at "
        ++ toolUrl mcpUrl tool_name ++ ": " ++ m)
      ++ ". Connect Google Calendar (OAuth) and ensure the MCP server is running.",
      rfl⟩, rfl, rfl, rfl⟩
  · have h := hasSub_middle "Failed to reach MCP tool '".data tool_name.data
      ("' at ".data ++ (toolUrl mcpUrl tool_name).data ++ ": ".data ++ m.data)
    simpa [String.data_append, List.append_assoc] using h
  · have h := hasSub_middle ("Failed to reach MCP tool '".data ++ tool_name.data
      ++ "' at ".data) (toolUrl mcpUrl tool_name).data (": ".data ++ m.data)
    simpa [String.data_append, List.append_assoc] using h
  · have h := hasSub_middle ("Failed to reach MCP tool '".data ++ tool_name.data
      ++ "' at ".data ++ (toolUrl mcpUrl tool_name).data ++ ": ".data) m.data []
    simpa [String.data_append, List.append_assoc] using h

/-- **C10.** `detect_ambiguity`'s checks are raw substring tests: any
occurrence of `"am"`, `"pm"` or `":"` anywhere in the query (even inside a
word like "Sam") suppresses the `time` flag, and any occurrence of `"-"`
suppresses the `date` flag. -/
theorem detect_ambiguity_raw_substrings (q : String) :
    (inStr "am" q = true ∨ inStr "pm" q = true ∨ inStr ":" q = true →
      "time" ∉ detect_ambiguity q) ∧
    (inStr "-" q = true → "date" ∉ detect_ambiguity q) := by
  constructor
  · intro h
    unfold detect_ambiguity
    split
    · intro hmem
      rcases List.mem_append.mp hmem with h1 | h2
      · split at h1
        · next hc =>
          rcases h with ha | hp | hco
          · rw [ha] at hc; simp at hc
          · rw [hp] at hc; simp at hc
          · rw [hco] at hc; simp at hc
        · cases h1
      · split at h2
        · exact absurd (List.mem_singleton.mp h2) (by decide)
        · cases h2
    · simp
  · intro h
    unfold detect_ambiguity
    split
    · intro hmem
      rcases List.mem_append.mp hmem with h1 | h2
      · split at h1
        · exact absurd (List.mem_singleton.mp h1) (by decide)
        · cases h1
      · split at h2
        · next hc =>
          rw [h] at hc
          simp at hc
        · cases h2
    · simp

/-- **C10 witness.** "schedule sync with Sam on 2025-01-02" contains `"am"`
(inside "Sam") and `"-"`, so neither `time` nor `date` is flagged. -/
theorem detect_ambiguity_raw_substrings_witness :
    inStr "am" "schedule sync with Sam on 2025-01-02" = true ∧
    inStr "-" "schedule sync with Sam on 2025-01-02" = true ∧
    "time" ∉ detect_ambiguity "schedule sync with Sam on 2025-01-02" ∧
    "date" ∉ detect_ambiguity "schedule sync with Sam on 2025-01-02" :=
  ⟨by decide, by decide,
    (detect_ambiguity_raw_substrings _).1 (Or.inl (by decide)),
    (detect_ambiguity_raw_substrings _).2 (by decide)⟩

set_option maxRecDepth 10000 in
/-- **C1 counterexample.** On the spec's query the lazy capture of the title
regex only stops at `" at "`, `" in "` or the end of the string — not at the
date word — so the extracted title is "Demo Review tomorrow", not
"Demo Review". -/
theorem creation_slots_title_cex :
    (extractCreationSlots "schedule a meeting named Demo Review tomorrow at 3pm").title ≠
      some "Demo Review" ∧
    (extractCreationSlots "schedule a meeting named Demo Review tomorrow at 3pm").title =
      some "Demo Review tomorrow" := by
  exact ⟨by decide, by decide⟩

set_option maxRecDepth 10000 in
/-- **C1 (amended).** The query classifies as CREATE_EVENT, and creation slot
extraction yields title "Demo Review tomorrow", date = tomorrow, start time
"15:00", end time "16:00" and an empty missing-field list (the trailing
"at 3pm" is also picked up as a location). -/
theorem creation_slots_demo_review :
    classify_intent "schedule a meeting named Demo Review tomorrow at 3pm" =
      "CREATE_EVENT" ∧
    extractCreationSlots "schedule a meeting named Demo Review tomorrow at 3pm" =
      { title := some "Demo Review tomorrow"
        date := some (.rel 1)
        start_time := some "15:00"
        end_time := some "16:00"
        location := some "3pm"
        missing := [] } := by
  exact ⟨by decide, by decide⟩
